import Mathlib

/-!
Verification of the branch-dependency analysis backend.

This file gives a shallow embedding of the analysis domain model, the JSON
repository, the LRU cache service and the analysis service of the repository
(`backend/analysis/domain_models.py`, `repositories.py`, `services.py`),
and proves the specified properties about them.
-/

namespace BranchAnalysis

/-! ## Basic string helpers (Python `in`, `lower`, `strip`) -/

/-- Whether `n` is a prefix of `h` (on character lists). -/
def listIsPrefixOf : List Char → List Char → Bool
  | [], _ => true
  | _ :: _, [] => false
  | c :: cs, d :: ds => c == d && listIsPrefixOf cs ds

/-- Whether `n` occurs as a contiguous sublist of `h`; models Python `n in h`. -/
def listIsSub (n : List Char) : List Char → Bool
  | [] => n.isEmpty
  | c :: t => listIsPrefixOf n (c :: t) || listIsSub n t

/-- Python `needle in hay` on strings. -/
def strContainsSub (hay needle : String) : Bool :=
  listIsSub needle.data hay.data

/-- Python `s.strip()`: the string without leading and trailing
whitespace. -/
def pyStrip (s : String) : String :=
  ⟨((s.data.dropWhile Char.isWhitespace).reverse.dropWhile
      Char.isWhitespace).reverse⟩

/-- Python `s.lower()`. -/
def pyLower (s : String) : String :=
  ⟨s.data.map Char.toLower⟩

/-- Failure-propagating traversal: Python building a tuple from a generator
whose element conversion may raise. -/
def mapOption {α β : Type} (f : α → Option β) : List α → Option (List β)
  | [] => some []
  | a :: l => do
    let b ← f a
    let bs ← mapOption f l
    pure (b :: bs)

/-! ## Domain model: `domain_models.py` -/

/-- The closed enumeration `DependencyType`. -/
inductive DependencyType where
  | instantiation
  | static_call
  | type_hint
  | use_statement
  | instanceof
  | class_constant
  | class_reference
deriving DecidableEq, Repr, Fintype

/-- The string value of each enum member. -/
def DependencyType.value : DependencyType → String
  | .instantiation => "instantiation"
  | .static_call => "static_call"
  | .type_hint => "type_hint"
  | .use_statement => "use_statement"
  | .instanceof => "instanceof"
  | .class_constant => "class_constant"
  | .class_reference => "class_reference"

/-- Enum lookup by value, models the `DependencyType(str)` constructor;
`none` models the `ValueError` Python raises for an unknown value. -/
def DependencyType.ofValue (s : String) : Option DependencyType :=
  if s = "instantiation" then some .instantiation
  else if s = "static_call" then some .static_call
  else if s = "type_hint" then some .type_hint
  else if s = "use_statement" then some .use_statement
  else if s = "instanceof" then some .instanceof
  else if s = "class_constant" then some .class_constant
  else if s = "class_reference" then some .class_reference
  else none

/-- All members of the enumeration, in declaration order. -/
def DependencyType.allValues : List DependencyType :=
  [.instantiation, .static_call, .type_hint, .use_statement,
   .instanceof, .class_constant, .class_reference]

/-- The `details` bag of a `Dependency`: a string-keyed mapping carrying
string values (the only used field is `class_name`). -/
abbrev Details := List (String × String)

/-- The `Dependency` value object. `line` is an `Int` because the source
validates `line < 0` on a Python int. -/
structure Dependency where
  type : DependencyType
  line : Int
  context : String
  details : Details
deriving DecidableEq, Repr

/-- The `__post_init__` validation of `Dependency`: non-negative line and
non-empty trimmed context. -/
def Dependency.Valid (d : Dependency) : Prop :=
  0 ≤ d.line ∧ pyStrip d.context ≠ ""

instance (d : Dependency) : Decidable d.Valid := by
  unfold Dependency.Valid; infer_instance

/-- Validated construction of a `Dependency` (`none` models the raised
`ValueError`). -/
def Dependency.mk? (t : DependencyType) (line : Int) (context : String)
    (details : Details) : Option Dependency :=
  if line < 0 then none
  else if pyStrip context = "" then none
  else some ⟨t, line, context, details⟩

/-- The `FileAnalysis` value object. -/
structure FileAnalysis where
  file_path : String
  relative_path : String
  dependencies : List Dependency
  error : Option String
deriving DecidableEq, Repr

/-- The `__post_init__` validation of `FileAnalysis` plus validity of the
contained dependencies. -/
def FileAnalysis.Valid (f : FileAnalysis) : Prop :=
  pyStrip f.file_path ≠ "" ∧ pyStrip f.relative_path ≠ "" ∧
    ∀ d ∈ f.dependencies, d.Valid

instance (f : FileAnalysis) : Decidable f.Valid := by
  unfold FileAnalysis.Valid; infer_instance

/-- Validated construction of a `FileAnalysis`. -/
def FileAnalysis.mk? (fp rp : String) (deps : List Dependency)
    (err : Option String) : Option FileAnalysis :=
  if pyStrip fp = "" then none
  else if pyStrip rp = "" then none
  else some ⟨fp, rp, deps, err⟩

/-- `FileAnalysis.total_dependencies`. -/
def FileAnalysis.total_dependencies (f : FileAnalysis) : Nat :=
  f.dependencies.length

/-- `FileAnalysis.has_dependencies`. -/
def FileAnalysis.has_dependencies (f : FileAnalysis) : Bool :=
  decide (0 < f.total_dependencies)

/-- `FileAnalysis.get_dependencies_by_type`. -/
def FileAnalysis.get_dependencies_by_type (f : FileAnalysis)
    (t : DependencyType) : List Dependency :=
  f.dependencies.filter (fun d => d.type == t)

/-- The `AnalysisMetadata` value object. Floats become rationals. -/
structure AnalysisMetadata where
  timestamp : String
  analysis_time_seconds : ℚ
  base_path : String
  analyzed_folders : List String
  excluded_folders : List String
  total_files_analyzed : Int
deriving DecidableEq, Repr

/-- The `__post_init__` validation of `AnalysisMetadata`. -/
def AnalysisMetadata.Valid (m : AnalysisMetadata) : Prop :=
  0 ≤ m.analysis_time_seconds ∧ 0 ≤ m.total_files_analyzed

instance (m : AnalysisMetadata) : Decidable m.Valid := by
  unfold AnalysisMetadata.Valid; infer_instance

/-- Validated construction of an `AnalysisMetadata`. -/
def AnalysisMetadata.mk? (ts : String) (ats : ℚ) (bp : String)
    (af ef : List String) (tfa : Int) : Option AnalysisMetadata :=
  if ats < 0 then none
  else if tfa < 0 then none
  else some ⟨ts, ats, bp, af, ef, tfa⟩

/-- The `AnalysisResult` aggregate root. -/
structure AnalysisResult where
  files : List FileAnalysis
  metadata : AnalysisMetadata
deriving DecidableEq, Repr

/-- Validity of an `AnalysisResult`: every contained object passed its
construction-time validation. -/
def AnalysisResult.Valid (r : AnalysisResult) : Prop :=
  (∀ f ∈ r.files, f.Valid) ∧ r.metadata.Valid

instance (r : AnalysisResult) : Decidable r.Valid := by
  unfold AnalysisResult.Valid; infer_instance

/-- `AnalysisResult.total_files`. -/
def AnalysisResult.total_files (r : AnalysisResult) : Nat :=
  r.files.length

/-- `AnalysisResult.files_with_dependencies`. -/
def AnalysisResult.files_with_dependencies (r : AnalysisResult) :
    List FileAnalysis :=
  r.files.filter (fun f => f.has_dependencies)

/-- `AnalysisResult.total_dependencies`. -/
def AnalysisResult.total_dependencies (r : AnalysisResult) : Nat :=
  (r.files.map (fun f => f.total_dependencies)).sum

/-- One update step of the distribution dict:
`distribution[dep_type] = distribution.get(dep_type, 0) + 1`.
An existing key keeps its position, a new key is appended. -/
def bumpType (dist : List (DependencyType × Nat)) (t : DependencyType) :
    List (DependencyType × Nat) :=
  match dist with
  | [] => [(t, 1)]
  | (u, c) :: rest => if u = t then (u, c + 1) :: rest else (u, c) :: bumpType rest t

/-- `AnalysisResult.dependency_type_distribution`: insertion-ordered dict of
type counts over all files. -/
def AnalysisResult.dependency_type_distribution (r : AnalysisResult) :
    List (DependencyType × Nat) :=
  r.files.foldl
    (fun dist f => f.dependencies.foldl (fun d dep => bumpType d dep.type) dist)
    []

/-! ## Errors (`interfaces.py` exception taxonomy plus Python `ValueError`) -/

/-- The exceptions crossing the layers we model: Python `ValueError`,
`RepositoryError`, and `AnalysisError` wrapping an original cause. -/
inductive PyErr where
  | valueError (msg : String)
  | repositoryError (msg : String)
  | analysisError (msg : String) (cause : PyErr)
deriving DecidableEq, Repr

/-! ## Hotspots: Python stable `sorted(..., reverse=True)` and `get_hotspots` -/

/-- Insert `x` into a descending-sorted list, before the first element whose
key is less than or equal to `x`'s key. This is the insertion position a
stable descending sort gives an element standing before the rest. -/
def insertDesc (x : FileAnalysis) : List FileAnalysis → List FileAnalysis
  | [] => [x]
  | y :: ys =>
    if y.total_dependencies ≤ x.total_dependencies then x :: y :: ys
    else y :: insertDesc x ys

/-- Stable sort by `total_dependencies` descending, modelling Python
`sorted(files, key=lambda f: f.total_dependencies, reverse=True)`
(Python's sort is stable and `reverse=True` keeps ties in list order). -/
def sortFilesDesc : List FileAnalysis → List FileAnalysis
  | [] => []
  | x :: xs => insertDesc x (sortFilesDesc xs)

/-- `AnalysisResult.get_hotspots`: guard `limit <= 0` raises `ValueError`,
then stable-descending sort of the files with dependencies, sliced to
`limit`. -/
def AnalysisResult.get_hotspots (r : AnalysisResult) (limit : Int) :
    Except PyErr (List FileAnalysis) :=
  if limit ≤ 0 then .error (.valueError "Limit must be positive")
  else .ok ((sortFilesDesc r.files_with_dependencies).take limit.toNat)

/-! ## Search: `AnalysisResult.search_files` -/

/-- Whether a file matches a (already lowercased) query: case-insensitive
substring of the relative path, or of some dependency context. -/
def fileMatchesQuery (ql : String) (f : FileAnalysis) : Bool :=
  strContainsSub (pyLower f.relative_path) ql ||
    f.dependencies.any (fun d => strContainsSub (pyLower d.context) ql)

/-- `AnalysisResult.search_files`: empty for queries whose trimmed length is
below 2; otherwise the files among `files_with_dependencies` whose relative
path or some dependency context contains the lowercased query, in original
order. -/
def AnalysisResult.search_files (r : AnalysisResult) (q : String) :
    List FileAnalysis :=
  if (pyStrip q).length < 2 then []
  else r.files_with_dependencies.filter (fileMatchesQuery (pyLower q))

/-! ## Serialization dictionaries (`to_dict` / `from_dict`) -/

/-- The dictionary shape `Dependency.to_dict` writes and
`Dependency.from_dict` reads. `details` is `Option` because `from_dict`
reads it with `data.get('details', \x7b\x7d)`. -/
structure DependencyDict where
  type : String
  line : Int
  context : String
  details : Option Details
deriving DecidableEq, Repr

/-- `Dependency.to_dict`. -/
def Dependency.to_dict (d : Dependency) : DependencyDict :=
  ⟨d.type.value, d.line, d.context, some d.details⟩

/-- `Dependency.from_dict`: enum lookup by value, then validated
construction; `none` models the raised `ValueError`. -/
def Dependency.from_dict (dd : DependencyDict) : Option Dependency := do
  let t ← DependencyType.ofValue dd.type
  Dependency.mk? t dd.line dd.context (dd.details.getD [])

/-- The dictionary shape `FileAnalysis.to_dict` writes. `relative_path`,
`dependencies` and `error` are read back with `.get`, hence `Option`;
`total_dependencies` is written but ignored on read. -/
structure FileAnalysisDict where
  file_path : String
  relative_path : Option String
  dependencies : Option (List DependencyDict)
  total_dependencies : Nat
  error : Option String
deriving DecidableEq, Repr

/-- `FileAnalysis.to_dict`. -/
def FileAnalysis.to_dict (f : FileAnalysis) : FileAnalysisDict :=
  ⟨f.file_path, some f.relative_path, some (f.dependencies.map Dependency.to_dict),
    f.total_dependencies, f.error⟩

/-- `FileAnalysis.from_dict`: deserialize each dependency, defaulting
`relative_path` to `file_path`, then validated construction. -/
def FileAnalysis.from_dict (fd : FileAnalysisDict) : Option FileAnalysis := do
  let deps ← mapOption Dependency.from_dict (fd.dependencies.getD [])
  FileAnalysis.mk? fd.file_path (fd.relative_path.getD fd.file_path) deps fd.error

/-- The dictionary shape `AnalysisMetadata.to_dict` writes; every field is
read back with `.get` and a default. -/
structure AnalysisMetadataDict where
  timestamp : Option String
  analysis_time_seconds : Option ℚ
  base_path : Option String
  analyzed_folders : Option (List String)
  excluded_folders : Option (List String)
  total_files_analyzed : Option Int
deriving DecidableEq, Repr

/-- `AnalysisMetadata.to_dict`. -/
def AnalysisMetadata.to_dict (m : AnalysisMetadata) : AnalysisMetadataDict :=
  ⟨some m.timestamp, some m.analysis_time_seconds, some m.base_path,
    some m.analyzed_folders, some m.excluded_folders, some m.total_files_analyzed⟩

/-- The empty metadata dictionary, modelling `data.get('analysis_metadata', \x7b\x7d)`. -/
def AnalysisMetadataDict.empty : AnalysisMetadataDict :=
  ⟨none, none, none, none, none, none⟩

/-- `AnalysisMetadata.from_dict`: defaults for every field, then validated
construction. -/
def AnalysisMetadata.from_dict (md : AnalysisMetadataDict) :
    Option AnalysisMetadata :=
  AnalysisMetadata.mk? (md.timestamp.getD "") (md.analysis_time_seconds.getD 0)
    (md.base_path.getD "") (md.analyzed_folders.getD [])
    (md.excluded_folders.getD []) (md.total_files_analyzed.getD 0)

/-- The dictionary shape `AnalysisResult.to_dict` writes. -/
structure AnalysisResultDict where
  files : Option (List FileAnalysisDict)
  analysis_metadata : Option AnalysisMetadataDict
deriving DecidableEq, Repr

/-- `AnalysisResult.to_dict`. -/
def AnalysisResult.to_dict (r : AnalysisResult) : AnalysisResultDict :=
  ⟨some (r.files.map FileAnalysis.to_dict), some r.metadata.to_dict⟩

/-- `AnalysisResult.from_dict`. -/
def AnalysisResult.from_dict (rd : AnalysisResultDict) : Option AnalysisResult := do
  let files ← mapOption FileAnalysis.from_dict (rd.files.getD [])
  let md ← AnalysisMetadata.from_dict (rd.analysis_metadata.getD .empty)
  some ⟨files, md⟩

/-! ## Summary statistics -/

/-- The `SummaryStatistics` value object; `dependency_type_counts` is the
distribution dict re-keyed by enum string values, `analysis_metadata` the
serialized metadata. -/
structure SummaryStatistics where
  total_files : Nat
  files_with_dependencies : Nat
  total_dependencies : Nat
  dependency_type_counts : List (String × Nat)
  analysis_metadata : AnalysisMetadataDict
deriving DecidableEq, Repr

/-- `SummaryStatistics.from_analysis_result`. -/
def SummaryStatistics.from_analysis_result (r : AnalysisResult) :
    SummaryStatistics :=
  ⟨r.total_files, r.files_with_dependencies.length, r.total_dependencies,
    r.dependency_type_distribution.map (fun p => (p.1.value, p.2)),
    r.metadata.to_dict⟩

/-! ## Repository: `JsonAnalysisDataRepository` (`repositories.py`) -/

/-- What the backing document contains: the path is missing, the file holds
text that is not valid JSON, or it parses to a dictionary. -/
inductive FileContent where
  | missing
  | invalidJson (text : String)
  | parsed (d : AnalysisResultDict)
deriving Repr

/-- `_create_empty_result`: empty file list, current-time timestamp, and
zero-valued metadata. -/
def createEmptyResult (now : String) : AnalysisResult :=
  ⟨[], ⟨now, 0, "", [], [], 0⟩⟩

/-- `load_analysis_result`: cached value first when a cache collaborator is
configured; else an empty result for a missing document, `RepositoryError`
for invalid JSON or for data that cannot be mapped to the domain model. -/
def load_analysis_result (cached : Option AnalysisResult) (now : String)
    (content : FileContent) : Except PyErr AnalysisResult :=
  match cached with
  | some r => .ok r
  | none =>
    match content with
    | .missing => .ok (createEmptyResult now)
    | .invalidJson _ => .error (.repositoryError "Invalid JSON in analysis file")
    | .parsed d =>
      match AnalysisResult.from_dict d with
      | some r => .ok r
      | none => .error (.repositoryError "Invalid analysis data format")

/-! ## Cache service: `InMemoryCacheService` -/

/-- Association-list lookup, modelling `dict` access on an
insertion-ordered dict. -/
def assocLookup {κ α : Type} [DecidableEq κ] (l : List (κ × α)) (k : κ) :
    Option α :=
  match l with
  | [] => none
  | (k', v) :: rest => if k' = k then some v else assocLookup rest k

/-- `d[k] = v` on an insertion-ordered dict: an existing key keeps its
position, a new key is appended. -/
def assocSet {κ α : Type} [DecidableEq κ] (l : List (κ × α)) (k : κ) (v : α) :
    List (κ × α) :=
  match l with
  | [] => [(k, v)]
  | (k', v') :: rest =>
    if k' = k then (k, v) :: rest else (k', v') :: assocSet rest k v

/-- `del d[k]` on an insertion-ordered dict with unique keys. -/
def assocRemove {κ α : Type} [DecidableEq κ] (l : List (κ × α)) (k : κ) :
    List (κ × α) :=
  match l with
  | [] => []
  | (k', v') :: rest => if k' = k then rest else (k', v') :: assocRemove rest k

/-- The keys of an association list, in order. -/
def assocKeys {κ α : Type} (l : List (κ × α)) : List κ :=
  l.map Prod.fst

/-- The state of an `InMemoryCacheService`: the two dicts, the size bound,
and a strictly increasing logical clock standing for
`datetime.now().timestamp()`. -/
structure InMemoryCacheService (α : Type) where
  cache : List (String × α)
  access_times : List (String × Nat)
  max_size : Nat
  clock : Nat
deriving Repr

/-- A freshly constructed cache. -/
def InMemoryCacheService.init (α : Type) (max_size : Nat) :
    InMemoryCacheService α :=
  ⟨[], [], max_size, 0⟩

/-- `get`: on a hit, refresh the key's access time and return the value. -/
def InMemoryCacheService.get {α : Type} (s : InMemoryCacheService α)
    (k : String) : Option α × InMemoryCacheService α :=
  match assocLookup s.cache k with
  | some v =>
    (some v, { s with access_times := assocSet s.access_times k s.clock,
                      clock := s.clock + 1 })
  | none => (none, s)

/-- `min(self.access_times.keys(), key=...)` starting from a first
candidate: the first key attaining the minimal access time. -/
def minKeyAux (bk : String) (bt : Nat) : List (String × Nat) → String
  | [] => bk
  | (k, t) :: rest => if t < bt then minKeyAux k t rest else minKeyAux bk bt rest

/-- The least-recently-accessed key: the first key of minimal access time,
`none` when the dict is empty. -/
def lruKeyOf (ats : List (String × Nat)) : Option String :=
  match ats with
  | [] => none
  | (k, t) :: rest => some (minKeyAux k t rest)

/-- `delete`: remove the key from both dicts when present. -/
def InMemoryCacheService.delete {α : Type} (s : InMemoryCacheService α)
    (k : String) : InMemoryCacheService α :=
  if (assocLookup s.cache k).isSome then
    { s with cache := assocRemove s.cache k,
             access_times := assocRemove s.access_times k }
  else s

/-- `_evict_lru`: nothing when `access_times` is empty, else delete the
least-recently-accessed key. -/
def InMemoryCacheService.evict_lru {α : Type} (s : InMemoryCacheService α) :
    InMemoryCacheService α :=
  match lruKeyOf s.access_times with
  | none => s
  | some k => s.delete k

/-- `set`: evict when the cache is at capacity and the key is new; then
write the value and refresh the access time. The TTL argument of the source
is ignored by this implementation. -/
def InMemoryCacheService.set {α : Type} (s : InMemoryCacheService α)
    (k : String) (v : α) : InMemoryCacheService α :=
  let s1 :=
    if s.max_size ≤ s.cache.length ∧ (assocLookup s.cache k).isNone then
      s.evict_lru
    else s
  { s1 with cache := assocSet s1.cache k v,
            access_times := assocSet s1.access_times k s1.clock,
            clock := s1.clock + 1 }

/-- `clear`. -/
def InMemoryCacheService.clear {α : Type} (s : InMemoryCacheService α) :
    InMemoryCacheService α :=
  { s with cache := [], access_times := [] }

/-- `exists`. -/
def InMemoryCacheService.existsKey {α : Type} (s : InMemoryCacheService α)
    (k : String) : Bool :=
  (assocLookup s.cache k).isSome

/-- One client-visible cache operation. -/
inductive CacheOp (α : Type) where
  | get (k : String)
  | set (k : String) (v : α)
  | delete (k : String)
  | clear
deriving Repr

/-- Apply one operation to the cache state. -/
def applyCacheOp {α : Type} (s : InMemoryCacheService α) :
    CacheOp α → InMemoryCacheService α
  | .get k => (s.get k).2
  | .set k v => s.set k v
  | .delete k => s.delete k
  | .clear => s.clear

/-- Run a sequence of cache operations from a state. -/
def runCacheOps {α : Type} (s : InMemoryCacheService α)
    (ops : List (CacheOp α)) : InMemoryCacheService α :=
  ops.foldl applyCacheOp s

/-- The bookkeeping invariant of the cache: unique keys, the two dicts hold
exactly the same keys, and the entry count never exceeds `max_size`. -/
def CacheWF {α : Type} (s : InMemoryCacheService α) : Prop :=
  (assocKeys s.cache).Nodup ∧
    assocKeys s.cache = assocKeys s.access_times ∧
    s.cache.length ≤ s.max_size

/-! ## Validation service: `StandardValidationService` -/

/-- `validate_search_query`: trimmed length within 0..100. -/
def validate_search_query (q : String) : Bool :=
  decide (0 ≤ (pyStrip q).length) && decide ((pyStrip q).length ≤ 100)

/-- `validate_limit_parameter`: integer within 1..1000. -/
def validate_limit_parameter (limit : Int) : Bool :=
  decide (1 ≤ limit) && decide (limit ≤ 1000)

/-- `validate_dependency_type`: a member value of the closed enumeration. -/
def validate_dependency_type (s : String) : Bool :=
  (DependencyType.allValues.map DependencyType.value).contains s

/-- `validate_file_path`: trimmed length strictly between 0 and 1000. -/
def validate_file_path (p : String) : Bool :=
  decide (0 < (pyStrip p).length) && decide ((pyStrip p).length < 1000)

/-! ## Analysis service: `BranchDependencyAnalysisService` -/

/-- The `try/except` policy of every service operation: a `ValueError`
passes through unwrapped, any other exception is wrapped into an
`AnalysisError` carrying the original cause. -/
def wrapErrors {α : Type} (opMsg : String) (x : Except PyErr α) :
    Except PyErr α :=
  match x with
  | .ok a => .ok a
  | .error (.valueError m) => .error (.valueError m)
  | .error e => .error (.analysisError opMsg e)

/-- `find_dependency_hotspots`: validate the limit, consult the cache, then
compute `get_hotspots` on the loaded result. `repoLoad` stands for the
outcome of `_get_analysis_result`. -/
def find_dependency_hotspots (limit : Int)
    (cached : Option (List FileAnalysis))
    (repoLoad : Except PyErr AnalysisResult) :
    Except PyErr (List FileAnalysis) :=
  wrapErrors "Failed to find dependency hotspots" (do
    if ¬ validate_limit_parameter limit then
      throw (.valueError "Invalid limit parameter")
    else
      match cached with
      | some v => pure v
      | none => do
        let r ← repoLoad
        r.get_hotspots limit)

/-- A dependency annotated with its owning file, as built by
`get_dependencies_by_type`: `dep.to_dict()` plus a `file` key. -/
structure AnnotatedDependency where
  type : String
  line : Int
  context : String
  details : Details
  file : String
deriving DecidableEq, Repr

/-- The annotation step: serialize the dependency and tag it with the
owning file's relative path. -/
def annotateDep (rp : String) (d : Dependency) : AnnotatedDependency :=
  ⟨d.type.value, d.line, d.context, d.details, rp⟩

/-- The collection loop of `get_dependencies_by_type`: for each file in
order, the file's dependencies of the requested type in discovery order,
each annotated with the file's relative path. -/
def collectDependenciesByType (r : AnalysisResult) (t : DependencyType) :
    List AnnotatedDependency :=
  r.files.flatMap
    (fun f => (f.get_dependencies_by_type t).map (annotateDep f.relative_path))

/-- `get_dependencies_by_type`: validate the type value, consult the cache,
then collect annotated dependencies from the loaded result. -/
def get_dependencies_by_type (t : DependencyType)
    (cached : Option (List AnnotatedDependency))
    (repoLoad : Except PyErr AnalysisResult) :
    Except PyErr (List AnnotatedDependency) :=
  wrapErrors "Failed to get dependencies by type" (do
    if ¬ validate_dependency_type t.value then
      throw (.valueError "Invalid dependency type")
    else
      match cached with
      | some v => pure v
      | none => do
        let r ← repoLoad
        pure (collectDependenciesByType r t))

/-- `search_dependencies`: validate the query, then delegate to
`search_files` on the loaded result; never cached. -/
def search_dependencies (q : String)
    (repoLoad : Except PyErr AnalysisResult) :
    Except PyErr (List FileAnalysis) :=
  wrapErrors "Failed to search dependencies" (do
    if ¬ validate_search_query q then
      throw (.valueError "Invalid search query")
    else do
      let r ← repoLoad
      pure (r.search_files q))

/-- `get_file_analysis`: validate the path, then a linear scan for an exact
relative- or absolute-path match; a miss is `none`, not an error. -/
def get_file_analysis (p : String)
    (repoLoad : Except PyErr AnalysisResult) :
    Except PyErr (Option FileAnalysis) :=
  wrapErrors "Failed to get file analysis" (do
    if ¬ validate_file_path p then
      throw (.valueError "Invalid file path")
    else do
      let r ← repoLoad
      pure (r.files.find? (fun f => f.relative_path == p || f.file_path == p)))

/-! ## Staleness: `_get_analysis_result` / `_should_reload_data` -/

/-- The service's working-set state: the held result and the instant it was
loaded. -/
structure ServiceState where
  analysis_result : Option AnalysisResult
  last_loaded_time : Option ℚ
deriving Repr

/-- `_should_reload_data`: reload when never timestamped; keep the held
copy when the repository has no modification time; else reload exactly when
the document is strictly newer than the load instant. -/
def should_reload_data (st : ServiceState) (lastModified : Option ℚ) : Bool :=
  match st.last_loaded_time with
  | none => true
  | some t =>
    match lastModified with
    | none => false
    | some m => decide (t < m)

/-- `_get_analysis_result`: load when never loaded or stale, recording the
load instant; otherwise answer from the held copy. `loaded` stands for the
result the repository would return, `now` for `time.time()`. -/
def get_analysis_result (st : ServiceState) (lastModified : Option ℚ)
    (loaded : AnalysisResult) (now : ℚ) : AnalysisResult × ServiceState :=
  match st.analysis_result with
  | none => (loaded, ⟨some loaded, some now⟩)
  | some r =>
    if should_reload_data st lastModified then
      (loaded, ⟨some loaded, some now⟩)
    else (r, st)

/-! ## Claim-side search predicate (for comparison with `search_files`) -/

/-- Search as the specification words it: every file, regardless of whether
it has dependencies, matches when the query is a case-insensitive substring
of its relative path or of some dependency context; queries of trimmed
length below 2 give the empty sequence. -/
def searchFilesClaim (r : AnalysisResult) (q : String) : List FileAnalysis :=
  if (pyStrip q).length < 2 then []
  else r.files.filter (fileMatchesQuery (pyLower q))

/-! ## Concrete fixtures -/

/-- A valid metadata record used by the fixtures. -/
def exMeta : AnalysisMetadata :=
  ⟨"2024-01-01 00:00:00", 1, "/base", ["app"], ["vendor"], 3⟩

/-- An `instantiation` dependency at a given line. -/
def exDepInst (n : Int) : Dependency :=
  ⟨.instantiation, n, "new Branch()", [("class_name", "Branch")]⟩

/-- A `static_call` dependency at a given line. -/
def exDepStatic (n : Int) : Dependency :=
  ⟨.static_call, n, "Branch::find(1)", [("class_name", "Branch")]⟩

/-- File A: five `instantiation` dependencies. -/
def exFileA : FileAnalysis :=
  ⟨"/base/app/A.php", "app/A.php",
    [exDepInst 1, exDepInst 2, exDepInst 3, exDepInst 4, exDepInst 5], none⟩

/-- File B: two `static_call` dependencies. -/
def exFileB : FileAnalysis :=
  ⟨"/base/app/B.php", "app/B.php", [exDepStatic 10, exDepStatic 20], none⟩

/-- File C: no dependencies. -/
def exFileC : FileAnalysis :=
  ⟨"/base/app/C.php", "app/C.php", [], none⟩

/-- The three-file fixture result of the end-to-end spec example. -/
def exResult : AnalysisResult :=
  ⟨[exFileA, exFileB, exFileC], exMeta⟩

/-! ## General lemmas on association lists -/

theorem assocKeys_nil {κ α : Type} : assocKeys ([] : List (κ × α)) = [] := rfl

theorem assocKeys_cons {κ α : Type} (k : κ) (v : α) (l : List (κ × α)) :
    assocKeys ((k, v) :: l) = k :: assocKeys l := rfl

theorem length_assocKeys {κ α : Type} (l : List (κ × α)) :
    (assocKeys l).length = l.length := by
  simp [assocKeys]

theorem assocLookup_eq_none_iff {κ α : Type} [DecidableEq κ]
    (l : List (κ × α)) (k : κ) :
    assocLookup l k = none ↔ k ∉ assocKeys l := by
  induction l with
  | nil => simp [assocLookup, assocKeys_nil]
  | cons p rest ih =>
    obtain ⟨k', v⟩ := p
    rw [assocKeys_cons]
    by_cases h : k' = k
    · subst h
      simp [assocLookup]
    · simp only [assocLookup, if_neg h, List.mem_cons]
      rw [ih]
      constructor
      · intro hk hc
        rcases hc with hc | hc
        · exact h hc.symm
        · exact hk hc
      · intro hk hc
        exact hk (Or.inr hc)

theorem assocLookup_isSome_iff {κ α : Type} [DecidableEq κ]
    (l : List (κ × α)) (k : κ) :
    (assocLookup l k).isSome = true ↔ k ∈ assocKeys l := by
  rw [← Decidable.not_iff_not, ← assocLookup_eq_none_iff l k]
  simp [Option.isSome_iff_ne_none]

theorem assocLookup_assocSet_self {κ α : Type} [DecidableEq κ]
    (l : List (κ × α)) (k : κ) (v : α) :
    assocLookup (assocSet l k v) k = some v := by
  induction l with
  | nil => simp [assocSet, assocLookup]
  | cons p rest ih =>
    obtain ⟨k', v'⟩ := p
    by_cases h : k' = k
    · simp [assocSet, assocLookup, h]
    · simp [assocSet, assocLookup, h, ih]

theorem assocLookup_assocSet_ne {κ α : Type} [DecidableEq κ]
    (l : List (κ × α)) (k k' : κ) (v : α) (h : k' ≠ k) :
    assocLookup (assocSet l k v) k' = assocLookup l k' := by
  induction l with
  | nil => simp [assocSet, assocLookup, Ne.symm h]
  | cons p rest ih =>
    obtain ⟨k'', v''⟩ := p
    by_cases h2 : k'' = k
    · subst h2
      simp [assocSet, assocLookup, Ne.symm h, h]
    · simp [assocSet, assocLookup, h2, ih]

theorem assocKeys_assocSet_of_none {κ α : Type} [DecidableEq κ]
    (l : List (κ × α)) (k : κ) (v : α) (h : assocLookup l k = none) :
    assocKeys (assocSet l k v) = assocKeys l ++ [k] := by
  induction l with
  | nil => simp [assocSet, assocKeys_nil, assocKeys_cons]
  | cons p rest ih =>
    obtain ⟨k', v'⟩ := p
    by_cases h2 : k' = k
    · simp [assocLookup, h2] at h
    · simp only [assocLookup, if_neg h2] at h
      simp only [assocSet, if_neg h2, assocKeys_cons, List.cons_append]
      rw [ih h]

theorem assocKeys_assocSet_of_mem {κ α : Type} [DecidableEq κ]
    (l : List (κ × α)) (k : κ) (v : α) (h : k ∈ assocKeys l) :
    assocKeys (assocSet l k v) = assocKeys l := by
  induction l with
  | nil => simp [assocKeys_nil] at h
  | cons p rest ih =>
    obtain ⟨k', v'⟩ := p
    by_cases h2 : k' = k
    · simp [assocSet, assocKeys_cons, h2]
    · rw [assocKeys_cons, List.mem_cons] at h
      rcases h with h | h
      · exact absurd h.symm h2
      · simp only [assocSet, if_neg h2, assocKeys_cons]
        rw [ih h]

theorem length_assocSet_of_none {κ α : Type} [DecidableEq κ]
    (l : List (κ × α)) (k : κ) (v : α) (h : assocLookup l k = none) :
    (assocSet l k v).length = l.length + 1 := by
  have h3 := assocKeys_assocSet_of_none l k v h
  have h1 := length_assocKeys (assocSet l k v)
  have h2 := length_assocKeys l
  rw [h3] at h1
  simp at h1
  omega

theorem length_assocSet_of_mem {κ α : Type} [DecidableEq κ]
    (l : List (κ × α)) (k : κ) (v : α) (h : k ∈ assocKeys l) :
    (assocSet l k v).length = l.length := by
  have h3 := assocKeys_assocSet_of_mem l k v h
  have h1 := length_assocKeys (assocSet l k v)
  have h2 := length_assocKeys l
  rw [h3] at h1
  omega

theorem assocKeys_assocRemove {κ α : Type} [DecidableEq κ]
    (l : List (κ × α)) (k : κ) :
    assocKeys (assocRemove l k) = (assocKeys l).erase k := by
  induction l with
  | nil => simp [assocRemove, assocKeys_nil]
  | cons p rest ih =>
    obtain ⟨k', v'⟩ := p
    by_cases h : k' = k
    · subst h
      simp [assocRemove, assocKeys_cons, List.erase_cons]
    · simp only [assocRemove, if_neg h, assocKeys_cons, List.erase_cons]
      have hb : (k' == k) = false := by simp [h]
      rw [hb, ih]
      simp

theorem length_assocRemove_of_mem {κ α : Type} [DecidableEq κ]
    (l : List (κ × α)) (k : κ) (h : k ∈ assocKeys l) :
    (assocRemove l k).length + 1 = l.length := by
  induction l with
  | nil => simp [assocKeys_nil] at h
  | cons p rest ih =>
    obtain ⟨k', v'⟩ := p
    by_cases h2 : k' = k
    · simp [assocRemove, h2]
    · rw [assocKeys_cons, List.mem_cons] at h
      rcases h with h | h
      · exact absurd h.symm h2
      · simp only [assocRemove, if_neg h2, List.length_cons]
        rw [← ih h]

theorem length_assocRemove_le {κ α : Type} [DecidableEq κ]
    (l : List (κ × α)) (k : κ) :
    (assocRemove l k).length ≤ l.length := by
  induction l with
  | nil => simp [assocRemove]
  | cons p rest ih =>
    obtain ⟨k', v'⟩ := p
    by_cases h : k' = k
    · simp [assocRemove, h]
    · simp [assocRemove, h]
      omega

theorem assocLookup_assocRemove_self {κ α : Type} [DecidableEq κ]
    (l : List (κ × α)) (k : κ) (h : (assocKeys l).Nodup) :
    assocLookup (assocRemove l k) k = none := by
  induction l with
  | nil => simp [assocRemove, assocLookup]
  | cons p rest ih =>
    obtain ⟨k', v'⟩ := p
    rw [assocKeys_cons, List.nodup_cons] at h
    by_cases h2 : k' = k
    · subst h2
      rw [assocLookup_eq_none_iff]
      simpa [assocRemove] using h.1
    · simp only [assocRemove, if_neg h2, assocLookup, if_neg h2]
      exact ih h.2

theorem assocLookup_assocRemove_ne {κ α : Type} [DecidableEq κ]
    (l : List (κ × α)) (k k' : κ) (h : k' ≠ k) :
    assocLookup (assocRemove l k) k' = assocLookup l k' := by
  induction l with
  | nil => simp [assocRemove]
  | cons p rest ih =>
    obtain ⟨k'', v''⟩ := p
    by_cases h2 : k'' = k
    · subst h2
      simp [assocRemove, assocLookup, Ne.symm h]
    · simp [assocRemove, assocLookup, h2, ih]

/-! ## Claim C4: repository load on missing or malformed documents -/

/-- C4. Repository load: when the backing document path does not exist,
`load_analysis_result` returns a valid `AnalysisResult` with zero files and
zero-valued metadata (empty base path and folder lists, zero analysis time
and file count, the current-time timestamp) rather than failing; when the
document exists but contains invalid JSON, it fails with a
`RepositoryError`. -/
theorem repository_load_missing_and_invalid (now text : String) :
    load_analysis_result none now .missing = .ok (createEmptyResult now) ∧
    (createEmptyResult now).files = [] ∧
    (createEmptyResult now).Valid ∧
    (createEmptyResult now).metadata.analysis_time_seconds = 0 ∧
    (createEmptyResult now).metadata.total_files_analyzed = 0 ∧
    (createEmptyResult now).metadata.base_path = "" ∧
    (createEmptyResult now).metadata.analyzed_folders = [] ∧
    (createEmptyResult now).metadata.excluded_folders = [] ∧
    (createEmptyResult now).metadata.timestamp = now ∧
    load_analysis_result none now (.invalidJson text) =
      .error (.repositoryError "Invalid JSON in analysis file") := by
  refine ⟨rfl, rfl, ?_, rfl, rfl, rfl, rfl, rfl, rfl, rfl⟩
  constructor
  · intro f hf
    simp [createEmptyResult] at hf
  · constructor <;> simp [createEmptyResult]

/-! ## Claim C5: staleness resolution -/

/-- C5. Staleness resolution: before answering a query the service loads
the result if never loaded; otherwise it reloads exactly when the
repository reports a last-modified timestamp strictly newer than the
recorded load time, and whenever `get_last_modified` returns `none` the
held copy is treated as fresh and no reload occurs. -/
theorem staleness_resolution (r : AnalysisResult) (t m now : ℚ)
    (lm : Option ℚ) (loaded : AnalysisResult) :
    (get_analysis_result ⟨none, none⟩ lm loaded now =
      (loaded, ⟨some loaded, some now⟩)) ∧
    (get_analysis_result ⟨some r, some t⟩ none loaded now =
      (r, ⟨some r, some t⟩)) ∧
    (t < m → get_analysis_result ⟨some r, some t⟩ (some m) loaded now =
      (loaded, ⟨some loaded, some now⟩)) ∧
    (¬ t < m → get_analysis_result ⟨some r, some t⟩ (some m) loaded now =
      (r, ⟨some r, some t⟩)) := by
  refine ⟨rfl, ?_, ?_, ?_⟩
  · simp [get_analysis_result, should_reload_data]
  · intro h
    simp [get_analysis_result, should_reload_data, h]
  · intro h
    simp [get_analysis_result, should_reload_data, h]

/-- Witness for C5 at concrete instants: a document modified at instant 2
after a load at instant 1 forces a reload. -/
theorem staleness_resolution_witness :
    get_analysis_result ⟨some exResult, some 1⟩ (some 2)
      (createEmptyResult "t") 3 =
      (createEmptyResult "t", ⟨some (createEmptyResult "t"), some 3⟩) :=
  (staleness_resolution exResult 1 2 3 (some 2) (createEmptyResult "t")).2.2.1
    (by norm_num)

/-! ## Claim C9: summary statistics are exact aggregates -/

theorem DependencyType.value_injective_all :
    ∀ a b : DependencyType, a.value = b.value → a = b := by
  decide

theorem DependencyType.value_injective (a b : DependencyType)
    (h : a.value = b.value) : a = b :=
  DependencyType.value_injective_all a b h

/-- The count a distribution dict records for a type, zero when absent. -/
def distCount (dist : List (DependencyType × Nat)) (t : DependencyType) : Nat :=
  (assocLookup dist t).getD 0

/-- The number of dependencies of a given type across all files. -/
def typeCount (r : AnalysisResult) (t : DependencyType) : Nat :=
  ((r.files.flatMap (fun f => f.dependencies)).filter
    (fun d => d.type == t)).length

theorem distCount_bumpType_self (dist : List (DependencyType × Nat))
    (t : DependencyType) : distCount (bumpType dist t) t = distCount dist t + 1 := by
  induction dist with
  | nil => simp [bumpType, distCount, assocLookup]
  | cons p rest ih =>
    obtain ⟨u, c⟩ := p
    by_cases h : u = t
    · subst h
      simp [bumpType, distCount, assocLookup]
    · simp [bumpType, distCount, assocLookup, h] at ih ⊢
      exact ih

theorem distCount_bumpType_ne (dist : List (DependencyType × Nat))
    (t t' : DependencyType) (h : t' ≠ t) :
    distCount (bumpType dist t) t' = distCount dist t' := by
  induction dist with
  | nil => simp [bumpType, distCount, assocLookup, Ne.symm h]
  | cons p rest ih =>
    obtain ⟨u, c⟩ := p
    by_cases h2 : u = t
    · subst h2
      simp [bumpType, distCount, assocLookup, Ne.symm h]
    · by_cases h3 : u = t'
      · subst h3
        simp [bumpType, distCount, assocLookup, h2]
      · simp [bumpType, distCount, assocLookup, h2, h3] at ih ⊢
        exact ih

theorem distCount_foldl_deps (l : List Dependency)
    (init : List (DependencyType × Nat)) (t : DependencyType) :
    distCount (l.foldl (fun d dep => bumpType d dep.type) init) t =
      distCount init t + (l.filter (fun d => d.type == t)).length := by
  induction l generalizing init with
  | nil => simp
  | cons dep rest ih =>
    rw [List.foldl_cons, ih]
    by_cases h : dep.type = t
    · rw [List.filter_cons]
      simp only [h, beq_self_eq_true, if_pos]
      rw [distCount_bumpType_self]
      simp [h]
      omega
    · rw [List.filter_cons]
      have hb : (dep.type == t) = false := by simp [h]
      rw [hb]
      simp only [Bool.false_eq_true, if_false]
      rw [distCount_bumpType_ne _ _ _ (fun he => h he.symm)]

theorem distribution_fold_flat (files : List FileAnalysis)
    (init : List (DependencyType × Nat)) :
    files.foldl
      (fun dist f => f.dependencies.foldl (fun d dep => bumpType d dep.type) dist)
      init =
    (files.flatMap (fun f => f.dependencies)).foldl
      (fun d dep => bumpType d dep.type) init := by
  induction files generalizing init with
  | nil => simp
  | cons f rest ih =>
    rw [List.foldl_cons, ih, List.flatMap_cons, List.foldl_append]

theorem distCount_distribution (r : AnalysisResult) (t : DependencyType) :
    distCount r.dependency_type_distribution t = typeCount r t := by
  unfold AnalysisResult.dependency_type_distribution typeCount
  rw [distribution_fold_flat, distCount_foldl_deps]
  simp [distCount, assocLookup]

theorem assocLookup_map_value (dist : List (DependencyType × Nat))
    (t : DependencyType) :
    assocLookup (dist.map (fun p => (p.1.value, p.2))) t.value =
      assocLookup dist t := by
  induction dist with
  | nil => simp [assocLookup]
  | cons p rest ih =>
    obtain ⟨u, c⟩ := p
    by_cases h : u = t
    · subst h
      simp [assocLookup]
    · have hv : u.value ≠ t.value := fun he => h (DependencyType.value_injective u t he)
      simp [assocLookup, h, hv, ih]

/-- C9. Summary statistics are the exact aggregates of the underlying
result: `total_files` is the number of files, `files_with_dependencies`
counts the files with at least one dependency, `total_dependencies` is the
sum of per-file dependency counts, and `dependency_type_counts` maps each
dependency type's string value to its count across all files; on the
three-file fixture (A: five `instantiation`, B: two `static_call`, C: none)
it reports exactly 3 / 2 / 7 and the two-key count mapping. -/
theorem summary_statistics_exact (r : AnalysisResult) (t : DependencyType) :
    (SummaryStatistics.from_analysis_result r).total_files = r.files.length ∧
    (SummaryStatistics.from_analysis_result r).files_with_dependencies =
      (r.files.filter (fun f => f.has_dependencies)).length ∧
    (SummaryStatistics.from_analysis_result r).total_dependencies =
      (r.files.map (fun f => f.dependencies.length)).sum ∧
    ((assocLookup
        (SummaryStatistics.from_analysis_result r).dependency_type_counts
        t.value).getD 0 = typeCount r t) ∧
    SummaryStatistics.from_analysis_result exResult =
      ⟨3, 2, 7, [("instantiation", 5), ("static_call", 2)], exMeta.to_dict⟩ := by
  refine ⟨rfl, rfl, rfl, ?_, by decide⟩
  show (assocLookup
      (r.dependency_type_distribution.map (fun p => (p.1.value, p.2)))
      t.value).getD 0 = typeCount r t
  rw [assocLookup_map_value]
  exact distCount_distribution r t

/-! ## Claim C3: serialization round-trip -/

theorem DependencyType.ofValue_value (t : DependencyType) :
    DependencyType.ofValue t.value = some t := by
  cases t <;> rfl

theorem dep_from_dict_to_dict (d : Dependency) (h : d.Valid) :
    Dependency.from_dict d.to_dict = some d := by
  obtain ⟨h1, h2⟩ := h
  have hl : ¬ d.line < 0 := by omega
  simp [Dependency.from_dict, Dependency.to_dict, DependencyType.ofValue_value,
    Dependency.mk?, hl, h2]

theorem mapM_dep_from_dict_to_dict (l : List Dependency)
    (h : ∀ d ∈ l, d.Valid) :
    mapOption Dependency.from_dict (l.map Dependency.to_dict) = some l := by
  induction l with
  | nil => rfl
  | cons d rest ih =>
    have hd := dep_from_dict_to_dict d (h d (by simp))
    have hrest := ih (fun d' hd' => h d' (by simp [hd']))
    simp [mapOption, hd, hrest]

theorem file_from_dict_to_dict (f : FileAnalysis) (h : f.Valid) :
    FileAnalysis.from_dict f.to_dict = some f := by
  obtain ⟨h1, h2, h3⟩ := h
  simp [FileAnalysis.from_dict, FileAnalysis.to_dict,
    mapM_dep_from_dict_to_dict f.dependencies h3, FileAnalysis.mk?, h1, h2]

theorem metadata_from_dict_to_dict (m : AnalysisMetadata)
    (h : m.Valid) : AnalysisMetadata.from_dict m.to_dict = some m := by
  obtain ⟨h1, h2⟩ := h
  have ha : ¬ m.analysis_time_seconds < 0 := not_lt.mpr h1
  have hb : ¬ m.total_files_analyzed < 0 := not_lt.mpr h2
  simp [AnalysisMetadata.from_dict, AnalysisMetadata.to_dict,
    AnalysisMetadata.mk?, ha, hb]

theorem mapM_file_from_dict_to_dict (l : List FileAnalysis)
    (h : ∀ f ∈ l, f.Valid) :
    mapOption FileAnalysis.from_dict (l.map FileAnalysis.to_dict) = some l := by
  induction l with
  | nil => rfl
  | cons f rest ih =>
    have hf := file_from_dict_to_dict f (h f (by simp))
    have hrest := ih (fun f' hf' => h f' (by simp [hf']))
    simp [mapOption, hf, hrest]

/-- C3. For every valid `AnalysisResult` `r`, reconstructing via
`AnalysisResult.from_dict (r.to_dict)` yields exactly `r`: the identical
file sequence with identical per-file dependency sequences and fields, and
identical metadata. -/
theorem analysis_result_roundtrip (r : AnalysisResult) (h : r.Valid) :
    AnalysisResult.from_dict r.to_dict = some r := by
  obtain ⟨hf, hm⟩ := h
  simp [AnalysisResult.from_dict, AnalysisResult.to_dict,
    mapM_file_from_dict_to_dict r.files hf,
    metadata_from_dict_to_dict r.metadata hm]

/-- Witness for C3 on the three-file fixture. -/
theorem analysis_result_roundtrip_witness :
    AnalysisResult.from_dict exResult.to_dict = some exResult :=
  analysis_result_roundtrip exResult (by decide)

/-! ## Claim C1: search across paths and contexts -/

/-- Counterexample to C1 as stated: for the fixture result and the query
`"C.php"` (trimmed length 5), the file `C` has no dependencies but its
relative path contains the query case-insensitively, so the claim predicts
`[exFileC]`; the code iterates only over `files_with_dependencies` and
returns the empty list. -/
theorem search_files_counterexample :
    exResult.search_files "C.php" = [] ∧
    searchFilesClaim exResult "C.php" = [exFileC] ∧
    exResult.search_files "C.php" ≠ searchFilesClaim exResult "C.php" := by
  refine ⟨by decide, by decide, by decide⟩

/-- C1 (amended). For every `AnalysisResult` and every query whose trimmed
length is at least 2 (and at most 100), `search_files` returns exactly the
files **having at least one dependency**, in original file order, for which
the query is a case-insensitive substring of the file's relative path or of
some dependency's context; for every query whose trimmed length is shorter
than 2 it returns the empty sequence; and under the service-level
validation bound the service delegates to the same computation. -/
theorem search_files_amended (r : AnalysisResult) (q : String) :
    (2 ≤ (pyStrip q).length →
      r.search_files q =
        r.files.filter
          (fun f => f.has_dependencies && fileMatchesQuery (pyLower q) f)) ∧
    ((pyStrip q).length < 2 → r.search_files q = []) ∧
    ((pyStrip q).length ≤ 100 →
      search_dependencies q (.ok r) = .ok (r.search_files q)) := by
  refine ⟨?_, ?_, ?_⟩
  · intro h
    unfold AnalysisResult.search_files AnalysisResult.files_with_dependencies
    rw [if_neg (by omega)]
    rw [List.filter_filter]
    congr 1
    funext f
    exact Bool.and_comm _ _
  · intro h
    unfold AnalysisResult.search_files
    rw [if_pos h]
  · intro h
    have hv : validate_search_query q = true := by
      simp [validate_search_query, h]
    simp [search_dependencies, wrapErrors, hv]

/-- Witness for the amended C1 on the fixture with query `"app"`. -/
theorem search_files_amended_witness :
    exResult.search_files "app" =
      exResult.files.filter
        (fun f => f.has_dependencies && fileMatchesQuery (pyLower "app") f) :=
  (search_files_amended exResult "app").1 (by decide)

/-! ## Claim C2: dependency hotspots -/

theorem mem_insertDesc (x a : FileAnalysis) (l : List FileAnalysis) :
    a ∈ insertDesc x l ↔ a = x ∨ a ∈ l := by
  induction l with
  | nil => simp [insertDesc]
  | cons y ys ih =>
    by_cases h : y.total_dependencies ≤ x.total_dependencies
    · simp [insertDesc, h]
    · simp [insertDesc, h, ih]
      tauto

theorem mem_sortFilesDesc (a : FileAnalysis) (l : List FileAnalysis) :
    a ∈ sortFilesDesc l ↔ a ∈ l := by
  induction l with
  | nil => simp [sortFilesDesc]
  | cons x xs ih =>
    simp [sortFilesDesc, mem_insertDesc, ih]

theorem pairwise_insertDesc (x : FileAnalysis) (l : List FileAnalysis)
    (h : l.Pairwise
      (fun a b => b.total_dependencies ≤ a.total_dependencies)) :
    (insertDesc x l).Pairwise
      (fun a b => b.total_dependencies ≤ a.total_dependencies) := by
  induction l with
  | nil => simp [insertDesc]
  | cons y ys ih =>
    rw [List.pairwise_cons] at h
    by_cases hc : y.total_dependencies ≤ x.total_dependencies
    · rw [insertDesc, if_pos hc, List.pairwise_cons]
      constructor
      · intro z hz
        rcases List.mem_cons.mp hz with hz | hz
        · subst hz; exact hc
        · exact le_trans (h.1 z hz) hc
      · rw [List.pairwise_cons]
        exact h
    · rw [insertDesc, if_neg hc, List.pairwise_cons]
      constructor
      · intro z hz
        rcases (mem_insertDesc x z ys).mp hz with hz | hz
        · subst hz; exact le_of_lt (not_le.mp hc)
        · exact h.1 z hz
      · exact ih h.2

theorem pairwise_sortFilesDesc (l : List FileAnalysis) :
    (sortFilesDesc l).Pairwise
      (fun a b => b.total_dependencies ≤ a.total_dependencies) := by
  induction l with
  | nil => simp [sortFilesDesc]
  | cons x xs ih => exact pairwise_insertDesc x (sortFilesDesc xs) ih

theorem filter_insertDesc (x : FileAnalysis) (l : List FileAnalysis) (n : Nat) :
    (insertDesc x l).filter (fun f => f.total_dependencies == n) =
      if x.total_dependencies == n then
        x :: l.filter (fun f => f.total_dependencies == n)
      else l.filter (fun f => f.total_dependencies == n) := by
  induction l with
  | nil =>
    simp only [insertDesc, List.filter_cons, List.filter_nil]
  | cons y ys ih =>
    by_cases hc : y.total_dependencies ≤ x.total_dependencies
    · rw [insertDesc, if_pos hc]
      simp only [List.filter_cons]
    · rw [insertDesc, if_neg hc]
      by_cases hx : x.total_dependencies = n
      · have hy : (y.total_dependencies == n) = false := by
          simp only [beq_eq_false_iff_ne, ne_eq]
          omega
        have hxb : (x.total_dependencies == n) = true := by simp [hx]
        simp only [List.filter_cons, hy, hxb, Bool.false_eq_true, if_false,
          if_true, ih]
      · have hxb : (x.total_dependencies == n) = false := by simp [hx]
        simp only [List.filter_cons, hxb, Bool.false_eq_true, if_false, ih]

theorem filter_sortFilesDesc (l : List FileAnalysis) (n : Nat) :
    (sortFilesDesc l).filter (fun f => f.total_dependencies == n) =
      l.filter (fun f => f.total_dependencies == n) := by
  induction l with
  | nil => simp [sortFilesDesc]
  | cons x xs ih =>
    rw [sortFilesDesc, filter_insertDesc, List.filter_cons]
    split <;> rw [ih]

/-- C2. For every `AnalysisResult` and every integer limit in `[1, 1000]`,
`find_dependency_hotspots limit` returns the first `limit` elements of the
stable-descending sort of the files with dependencies: at most `limit`
files, each with `has_dependencies`, sorted by `total_dependencies`
descending, ties broken by original file order (for every count `n`, the
sorted list restricted to files of count `n` is the original sublist of
such files); for every limit outside `[1, 1000]` it fails with a
validation error before any repository or cache access. -/
theorem hotspots_limit_behavior (r : AnalysisResult) (limit : Int) :
    (¬ (1 ≤ limit ∧ limit ≤ 1000) →
      ∀ (cached : Option (List FileAnalysis))
        (repoLoad : Except PyErr AnalysisResult),
        find_dependency_hotspots limit cached repoLoad =
          .error (.valueError "Invalid limit parameter")) ∧
    ((1 ≤ limit ∧ limit ≤ 1000) →
      find_dependency_hotspots limit none (.ok r) =
        .ok ((sortFilesDesc r.files_with_dependencies).take limit.toNat) ∧
      ((sortFilesDesc r.files_with_dependencies).take limit.toNat).length ≤
        limit.toNat ∧
      (∀ f ∈ (sortFilesDesc r.files_with_dependencies).take limit.toNat,
        f.has_dependencies = true) ∧
      ((sortFilesDesc r.files_with_dependencies).take limit.toNat).Pairwise
        (fun a b => b.total_dependencies ≤ a.total_dependencies) ∧
      (∀ n : Nat,
        (sortFilesDesc r.files_with_dependencies).filter
          (fun f => f.total_dependencies == n) =
        r.files_with_dependencies.filter
          (fun f => f.total_dependencies == n))) := by
  constructor
  · intro h cached repoLoad
    have hv : validate_limit_parameter limit = false := by
      simp [validate_limit_parameter]
      omega
    simp [find_dependency_hotspots, hv, wrapErrors]
  · intro h
    have hv : validate_limit_parameter limit = true := by
      simp [validate_limit_parameter]
      omega
    refine ⟨?_, ?_, ?_, ?_, ?_⟩
    · have hg : ¬ limit ≤ 0 := by omega
      simp [find_dependency_hotspots, hv, wrapErrors,
        AnalysisResult.get_hotspots, hg]
      rfl
    · calc ((sortFilesDesc r.files_with_dependencies).take limit.toNat).length
          = min limit.toNat (sortFilesDesc r.files_with_dependencies).length :=
            List.length_take _ _
        _ ≤ limit.toNat := min_le_left _ _
    · intro f hf
      have h1 : f ∈ sortFilesDesc r.files_with_dependencies :=
        List.take_subset _ _ hf
      have h2 : f ∈ r.files_with_dependencies := (mem_sortFilesDesc f _).mp h1
      exact List.of_mem_filter h2
    · exact (pairwise_sortFilesDesc _).sublist (List.take_sublist _ _)
    · intro n
      exact filter_sortFilesDesc _ n

/-- Witness for C2 on the fixture with limit 1: the service returns file A,
the single largest hotspot. -/
theorem hotspots_limit_behavior_witness :
    find_dependency_hotspots 1 none (.ok exResult) =
      .ok ((sortFilesDesc exResult.files_with_dependencies).take
        (Int.toNat 1)) :=
  ((hotspots_limit_behavior exResult 1).2 (by norm_num)).1

/-! ## Claim C8: dependencies collected by type -/

/-- C8. For every `AnalysisResult` and every member `t` of the closed
enumeration, `get_dependencies_by_type t` returns every dependency of type
`t` across every file, each annotated with its owning file's relative path,
in file order then in-file discovery order, and nothing else; the service
delegates to exactly this collection. -/
theorem dependencies_by_type_exact (r : AnalysisResult) (t : DependencyType) :
    (∀ x ∈ collectDependenciesByType r t, x.type = t.value) ∧
    collectDependenciesByType r t =
      r.files.flatMap (fun f =>
        ((f.dependencies.filter (fun d => d.type == t)).map
          (annotateDep f.relative_path))) ∧
    (collectDependenciesByType r t).length =
      (r.files.map
        (fun f => (f.dependencies.filter (fun d => d.type == t)).length)).sum ∧
    (∀ f ∈ r.files, ∀ d ∈ f.dependencies, d.type = t →
      annotateDep f.relative_path d ∈ collectDependenciesByType r t) ∧
    (∀ x ∈ collectDependenciesByType r t, ∃ f ∈ r.files,
      ∃ d ∈ f.dependencies, d.type = t ∧ x = annotateDep f.relative_path d) ∧
    get_dependencies_by_type t none (.ok r) =
      .ok (collectDependenciesByType r t) := by
  refine ⟨?_, rfl, ?_, ?_, ?_, ?_⟩
  · intro x hx
    rw [collectDependenciesByType] at hx
    rw [List.mem_flatMap] at hx
    obtain ⟨f, _, hx⟩ := hx
    rw [List.mem_map] at hx
    obtain ⟨d, hd, hx⟩ := hx
    rw [FileAnalysis.get_dependencies_by_type, List.mem_filter] at hd
    have ht : d.type = t := by simpa using hd.2
    subst hx
    rw [annotateDep, ht]
  · rw [collectDependenciesByType]
    induction r.files with
    | nil => simp
    | cons f fs ih =>
      simp only [List.flatMap_cons, List.length_append, List.map_cons,
        List.sum_cons, List.length_map, ih]
      rfl
  · intro f hf d hd ht
    rw [collectDependenciesByType, List.mem_flatMap]
    refine ⟨f, hf, ?_⟩
    rw [List.mem_map]
    refine ⟨d, ?_, rfl⟩
    rw [FileAnalysis.get_dependencies_by_type, List.mem_filter]
    exact ⟨hd, by simp [ht]⟩
  · intro x hx
    rw [collectDependenciesByType, List.mem_flatMap] at hx
    obtain ⟨f, hf, hx⟩ := hx
    rw [List.mem_map] at hx
    obtain ⟨d, hd, hx⟩ := hx
    rw [FileAnalysis.get_dependencies_by_type, List.mem_filter] at hd
    exact ⟨f, hf, d, hd.1, by simpa using hd.2, hx.symm⟩
  · have hv : validate_dependency_type t.value = true := by
      cases t <;> decide
    simp [get_dependencies_by_type, wrapErrors, hv]

/-- Witness for C8: the first `static_call` dependency of file B appears in
the collection, annotated with B's relative path. -/
theorem dependencies_by_type_exact_witness :
    annotateDep exFileB.relative_path (exDepStatic 10) ∈
      collectDependenciesByType exResult .static_call :=
  (dependencies_by_type_exact exResult .static_call).2.2.2.1 exFileB
    (by decide) (exDepStatic 10) (by decide) rfl

/-! ## Claim C7: service error policy -/

/-- C7. Service error policy: for every validating service operation, an
invalid input yields the validation error itself, unwrapped, whatever the
state of the cache and repository (so before any repository or cache access
can matter); for `get_dependencies_by_type` every well-typed input passes
validation; and any non-`ValueError` failure of the load is wrapped into an
`AnalysisError` carrying the original cause. -/
theorem service_error_policy :
    (∀ (limit : Int) (cached : Option (List FileAnalysis))
        (repoLoad : Except PyErr AnalysisResult),
      validate_limit_parameter limit = false →
      find_dependency_hotspots limit cached repoLoad =
        .error (.valueError "Invalid limit parameter")) ∧
    (∀ (q : String) (repoLoad : Except PyErr AnalysisResult),
      validate_search_query q = false →
      search_dependencies q repoLoad =
        .error (.valueError "Invalid search query")) ∧
    (∀ (p : String) (repoLoad : Except PyErr AnalysisResult),
      validate_file_path p = false →
      get_file_analysis p repoLoad =
        .error (.valueError "Invalid file path")) ∧
    (∀ t : DependencyType, validate_dependency_type t.value = true) ∧
    (∀ (limit : Int) (e : PyErr),
      validate_limit_parameter limit = true → (∀ m, e ≠ .valueError m) →
      find_dependency_hotspots limit none (.error e) =
        .error (.analysisError "Failed to find dependency hotspots" e)) ∧
    (∀ (q : String) (e : PyErr),
      validate_search_query q = true → (∀ m, e ≠ .valueError m) →
      search_dependencies q (.error e) =
        .error (.analysisError "Failed to search dependencies" e)) ∧
    (∀ (t : DependencyType) (e : PyErr), (∀ m, e ≠ .valueError m) →
      get_dependencies_by_type t none (.error e) =
        .error (.analysisError "Failed to get dependencies by type" e)) ∧
    (∀ (p : String) (e : PyErr),
      validate_file_path p = true → (∀ m, e ≠ .valueError m) →
      get_file_analysis p (.error e) =
        .error (.analysisError "Failed to get file analysis" e)) := by
  refine ⟨?_, ?_, ?_, ?_, ?_, ?_, ?_, ?_⟩
  · intro limit cached repoLoad hv
    simp [find_dependency_hotspots, hv, wrapErrors]
  · intro q repoLoad hv
    simp [search_dependencies, hv, wrapErrors]
  · intro p repoLoad hv
    simp [get_file_analysis, hv, wrapErrors]
  · intro t
    cases t <;> decide
  · intro limit e hv he
    cases e with
    | valueError m => exact absurd rfl (he m)
    | repositoryError m =>
      simp only [find_dependency_hotspots, hv, Bool.true_eq_false,
        not_true_eq_false, if_false]
      rfl
    | analysisError m c =>
      simp only [find_dependency_hotspots, hv, Bool.true_eq_false,
        not_true_eq_false, if_false]
      rfl
  · intro q e hv he
    cases e with
    | valueError m => exact absurd rfl (he m)
    | repositoryError m =>
      simp only [search_dependencies, hv, Bool.true_eq_false, not_true_eq_false, if_false]
      rfl
    | analysisError m c =>
      simp only [search_dependencies, hv, Bool.true_eq_false, not_true_eq_false, if_false]
      rfl
  · intro t e he
    have hv : validate_dependency_type t.value = true := by
      cases t <;> decide
    cases e with
    | valueError m => exact absurd rfl (he m)
    | repositoryError m =>
      simp only [get_dependencies_by_type, hv, Bool.true_eq_false, not_true_eq_false, if_false]
      rfl
    | analysisError m c =>
      simp only [get_dependencies_by_type, hv, Bool.true_eq_false, not_true_eq_false, if_false]
      rfl
  · intro p e hv he
    cases e with
    | valueError m => exact absurd rfl (he m)
    | repositoryError m =>
      simp only [get_file_analysis, hv, Bool.true_eq_false, not_true_eq_false, if_false]
      rfl
    | analysisError m c =>
      simp only [get_file_analysis, hv, Bool.true_eq_false, not_true_eq_false, if_false]
      rfl

/-- Witness for C7: limit 0 is rejected with the unwrapped validation
error even though the repository load would succeed. -/
theorem service_error_policy_witness :
    find_dependency_hotspots 0 none (.ok exResult) =
      .error (.valueError "Invalid limit parameter") :=
  service_error_policy.1 0 none (.ok exResult) (by decide)

/-! ## Claims C6 and C10: the LRU cache -/

theorem minKeyAux_spec (l : List (String × Nat)) (bk : String) (bt : Nat) :
    ∃ t0, ((minKeyAux bk bt l = bk ∧ t0 = bt) ∨ (minKeyAux bk bt l, t0) ∈ l) ∧
      t0 ≤ bt ∧ ∀ p ∈ l, t0 ≤ p.2 := by
  induction l generalizing bk bt with
  | nil => exact ⟨bt, Or.inl ⟨rfl, rfl⟩, le_refl _, by simp⟩
  | cons p rest ih =>
    obtain ⟨k, t⟩ := p
    by_cases h : t < bt
    · obtain ⟨t0, hmem, hle, hall⟩ := ih k t
      rw [minKeyAux, if_pos h]
      refine ⟨t0, ?_, ?_, ?_⟩
      · right
        rcases hmem with ⟨he, ht⟩ | hm
        · rw [he, ht]
          exact List.mem_cons_self _ _
        · exact List.mem_cons_of_mem _ hm
      · exact le_of_lt (lt_of_le_of_lt hle h)
      · intro p hp
        rcases List.mem_cons.mp hp with hp | hp
        · rw [hp]
          exact hle
        · exact hall p hp
    · obtain ⟨t0, hmem, hle, hall⟩ := ih bk bt
      rw [minKeyAux, if_neg h]
      refine ⟨t0, ?_, hle, ?_⟩
      · rcases hmem with hm | hm
        · exact Or.inl hm
        · exact Or.inr (List.mem_cons_of_mem _ hm)
      · intro p hp
        rcases List.mem_cons.mp hp with hp | hp
        · rw [hp]
          exact le_trans hle (not_lt.mp h)
        · exact hall p hp

theorem lruKeyOf_spec (ats : List (String × Nat)) (h : ats ≠ []) :
    ∃ lru t0, lruKeyOf ats = some lru ∧ (lru, t0) ∈ ats ∧
      ∀ p ∈ ats, t0 ≤ p.2 := by
  match ats, h with
  | (k, t) :: rest, _ =>
    obtain ⟨t0, hmem, hle, hall⟩ := minKeyAux_spec rest k t
    refine ⟨minKeyAux k t rest, t0, rfl, ?_, ?_⟩
    · rcases hmem with ⟨he, ht⟩ | hm
      · rw [he, ht]
        exact List.mem_cons_self _ _
      · exact List.mem_cons_of_mem _ hm
    · intro p hp
      rcases List.mem_cons.mp hp with hp | hp
      · rw [hp]
        exact hle
      · exact hall p hp

/-- C6. For an `InMemoryCacheService` at capacity with consistent
bookkeeping, inserting a fresh key evicts exactly the
least-recently-accessed key (the key whose access time is minimal): the
evicted key is afterwards absent — `get` returns `none` and `exists` is
false — the key set becomes the old keys minus the evicted one plus the new
key, the size stays at capacity, and after `clear` no key exists. -/
theorem cache_lru_eviction (α : Type) (s : InMemoryCacheService α)
    (k : String) (v : α)
    (hkeys : assocKeys s.cache = assocKeys s.access_times)
    (hnodup : (assocKeys s.cache).Nodup)
    (hfull : s.cache.length = s.max_size)
    (hpos : 1 ≤ s.max_size)
    (hfresh : assocLookup s.cache k = none) :
    ∃ lru t0, lruKeyOf s.access_times = some lru ∧
      (lru, t0) ∈ s.access_times ∧
      (∀ p ∈ s.access_times, t0 ≤ p.2) ∧
      ((s.set k v).get lru).1 = none ∧
      (s.set k v).existsKey lru = false ∧
      assocKeys (s.set k v).cache = (assocKeys s.cache).erase lru ++ [k] ∧
      (s.set k v).cache.length = s.max_size ∧
      (∀ k', s.clear.existsKey k' = false) := by
  have hlen : s.cache.length = s.access_times.length := by
    have h1 := length_assocKeys s.cache
    have h2 := length_assocKeys s.access_times
    rw [hkeys] at h1
    omega
  have hne : s.access_times ≠ [] := by
    intro he
    rw [he] at hlen
    simp only [List.length_nil] at hlen
    omega
  obtain ⟨lru, t0, hlru, hmem, hmin⟩ := lruKeyOf_spec s.access_times hne
  have hlrukeys : lru ∈ assocKeys s.access_times := by
    exact List.mem_map_of_mem Prod.fst hmem
  have hlrucache : lru ∈ assocKeys s.cache := by
    rw [hkeys]
    exact hlrukeys
  have hknotin : k ∉ assocKeys s.cache :=
    (assocLookup_eq_none_iff s.cache k).mp hfresh
  have hlruk : lru ≠ k := by
    intro he
    rw [he] at hlrucache
    exact hknotin hlrucache
  have hlrusome : (assocLookup s.cache lru).isSome = true :=
    (assocLookup_isSome_iff s.cache lru).mpr hlrucache
  have hcond : s.max_size ≤ s.cache.length ∧
      (assocLookup s.cache k).isNone = true := by
    constructor
    · omega
    · rw [hfresh]
      rfl
  have hevict : s.evict_lru =
      { s with cache := assocRemove s.cache lru,
               access_times := assocRemove s.access_times lru } := by
    unfold InMemoryCacheService.evict_lru
    rw [hlru]
    show (if (assocLookup s.cache lru).isSome = true then
      ({ s with cache := assocRemove s.cache lru,
                access_times := assocRemove s.access_times lru } :
        InMemoryCacheService α)
      else s) = _
    rw [if_pos hlrusome]
  have hset : s.set k v =
      { cache := assocSet (assocRemove s.cache lru) k v,
        access_times := assocSet (assocRemove s.access_times lru) k s.clock,
        max_size := s.max_size,
        clock := s.clock + 1 } := by
    rw [InMemoryCacheService.set]
    simp only [if_pos hcond, hevict]
  have hlookupnew : assocLookup (s.set k v).cache lru = none := by
    rw [hset]
    show assocLookup (assocSet (assocRemove s.cache lru) k v) lru = none
    rw [assocLookup_assocSet_ne _ _ _ _ hlruk]
    exact assocLookup_assocRemove_self s.cache lru hnodup
  have hknotinrem : assocLookup (assocRemove s.cache lru) k = none := by
    rw [assocLookup_eq_none_iff, assocKeys_assocRemove]
    intro hm
    exact hknotin (List.mem_of_mem_erase hm)
  refine ⟨lru, t0, hlru, hmem, hmin, ?_, ?_, ?_, ?_, ?_⟩
  · rw [InMemoryCacheService.get, hlookupnew]
  · rw [InMemoryCacheService.existsKey, hlookupnew]
    rfl
  · rw [hset]
    show assocKeys (assocSet (assocRemove s.cache lru) k v) =
      (assocKeys s.cache).erase lru ++ [k]
    rw [assocKeys_assocSet_of_none _ _ _ hknotinrem, assocKeys_assocRemove]
  · rw [hset]
    show (assocSet (assocRemove s.cache lru) k v).length = s.max_size
    rw [length_assocSet_of_none _ _ _ hknotinrem]
    have := length_assocRemove_of_mem s.cache lru hlrucache
    omega
  · intro k'
    rw [InMemoryCacheService.clear, InMemoryCacheService.existsKey]
    rfl

/-- Witness for C6: a capacity-2 cache holding `a` and `b`, with `a`
accessed more recently than `b`, evicts `b` (not the first-inserted `a`)
when `c` is inserted. -/
theorem cache_lru_eviction_witness :
    ∃ lru t0,
      lruKeyOf ((((InMemoryCacheService.init Nat 2).set "a" 1).set "b" 2).get
        "a").2.access_times = some lru ∧
      (lru, t0) ∈ ((((InMemoryCacheService.init Nat 2).set "a" 1).set "b"
        2).get "a").2.access_times ∧
      (∀ p ∈ ((((InMemoryCacheService.init Nat 2).set "a" 1).set "b" 2).get
        "a").2.access_times, t0 ≤ p.2) ∧
      ((((((InMemoryCacheService.init Nat 2).set "a" 1).set "b" 2).get
        "a").2.set "c" 3).get lru).1 = none ∧
      (((((InMemoryCacheService.init Nat 2).set "a" 1).set "b" 2).get
        "a").2.set "c" 3).existsKey lru = false ∧
      assocKeys (((((InMemoryCacheService.init Nat 2).set "a" 1).set "b"
        2).get "a").2.set "c" 3).cache =
        (assocKeys ((((InMemoryCacheService.init Nat 2).set "a" 1).set "b"
          2).get "a").2.cache).erase lru ++ ["c"] ∧
      (((((InMemoryCacheService.init Nat 2).set "a" 1).set "b" 2).get
        "a").2.set "c" 3).cache.length =
        ((((InMemoryCacheService.init Nat 2).set "a" 1).set "b" 2).get
          "a").2.max_size ∧
      (∀ k', ((((InMemoryCacheService.init Nat 2).set "a" 1).set "b" 2).get
        "a").2.clear.existsKey k' = false) :=
  cache_lru_eviction Nat
    ((((InMemoryCacheService.init Nat 2).set "a" 1).set "b" 2).get "a").2
    "c" 3 (by decide) (by decide) (by decide) (by decide) (by decide)

/-! ## Claim C10: cache bookkeeping invariant -/

theorem max_size_delete {α : Type} (s : InMemoryCacheService α)
    (k : String) : (s.delete k).max_size = s.max_size := by
  rw [InMemoryCacheService.delete]
  split <;> rfl

theorem max_size_evict_lru {α : Type} (s : InMemoryCacheService α) :
    s.evict_lru.max_size = s.max_size := by
  unfold InMemoryCacheService.evict_lru
  cases lruKeyOf s.access_times with
  | none => rfl
  | some k => exact max_size_delete s k

theorem max_size_applyCacheOp {α : Type} (s : InMemoryCacheService α)
    (op : CacheOp α) : (applyCacheOp s op).max_size = s.max_size := by
  cases op with
  | get k =>
    show ((s.get k).2).max_size = s.max_size
    rw [InMemoryCacheService.get]
    cases assocLookup s.cache k <;> rfl
  | set k v =>
    show (s.set k v).max_size = s.max_size
    rw [InMemoryCacheService.set]
    split
    · exact max_size_evict_lru s
    · rfl
  | delete k => exact max_size_delete s k
  | clear => rfl

theorem cacheWF_get {α : Type} (s : InMemoryCacheService α) (k : String)
    (h : CacheWF s) : CacheWF ((s.get k).2) := by
  obtain ⟨hnodup, hkeys, hlen⟩ := h
  rw [InMemoryCacheService.get]
  cases hl : assocLookup s.cache k with
  | none => exact ⟨hnodup, hkeys, hlen⟩
  | some v =>
    have hk : k ∈ assocKeys s.access_times := by
      rw [← hkeys]
      rw [← assocLookup_isSome_iff, hl]
      rfl
    refine ⟨hnodup, ?_, hlen⟩
    show assocKeys s.cache = assocKeys (assocSet s.access_times k s.clock)
    rw [assocKeys_assocSet_of_mem _ _ _ hk, hkeys]

theorem cacheWF_delete {α : Type} (s : InMemoryCacheService α) (k : String)
    (h : CacheWF s) : CacheWF (s.delete k) := by
  obtain ⟨hnodup, hkeys, hlen⟩ := h
  rw [InMemoryCacheService.delete]
  split
  · refine ⟨?_, ?_, ?_⟩
    · show (assocKeys (assocRemove s.cache k)).Nodup
      rw [assocKeys_assocRemove]
      exact hnodup.erase k
    · show assocKeys (assocRemove s.cache k) =
        assocKeys (assocRemove s.access_times k)
      rw [assocKeys_assocRemove, assocKeys_assocRemove, hkeys]
    · show (assocRemove s.cache k).length ≤ s.max_size
      exact le_trans (length_assocRemove_le s.cache k) hlen
  · exact ⟨hnodup, hkeys, hlen⟩

theorem cacheWF_set {α : Type} (s : InMemoryCacheService α) (k : String)
    (v : α) (hpos : 1 ≤ s.max_size) (h : CacheWF s) : CacheWF (s.set k v) := by
  obtain ⟨hnodup, hkeys, hlen⟩ := h
  have hlenk : s.cache.length = s.access_times.length := by
    have h1 := length_assocKeys s.cache
    have h2 := length_assocKeys s.access_times
    rw [hkeys] at h1
    omega
  rw [InMemoryCacheService.set]
  by_cases hc : s.max_size ≤ s.cache.length ∧
      (assocLookup s.cache k).isNone = true
  · -- at capacity with a fresh key: evict, then insert
    rw [if_pos hc]
    have hfresh : assocLookup s.cache k = none := by
      cases hl : assocLookup s.cache k with
      | none => rfl
      | some v' =>
        rw [hl] at hc
        simp [Option.isNone] at hc
    have hknotin : k ∉ assocKeys s.cache :=
      (assocLookup_eq_none_iff s.cache k).mp hfresh
    have hne : s.access_times ≠ [] := by
      intro he
      rw [he] at hlenk
      simp only [List.length_nil] at hlenk
      omega
    obtain ⟨lru, t0, hlru, hmem, _⟩ := lruKeyOf_spec s.access_times hne
    have hlrukeys : lru ∈ assocKeys s.access_times :=
      List.mem_map_of_mem Prod.fst hmem
    have hlrucache : lru ∈ assocKeys s.cache := by
      rw [hkeys]
      exact hlrukeys
    have hlrusome : (assocLookup s.cache lru).isSome = true :=
      (assocLookup_isSome_iff s.cache lru).mpr hlrucache
    have hevict : s.evict_lru =
        { s with cache := assocRemove s.cache lru,
                 access_times := assocRemove s.access_times lru } := by
      unfold InMemoryCacheService.evict_lru
      rw [hlru]
      show (if (assocLookup s.cache lru).isSome = true then
        ({ s with cache := assocRemove s.cache lru,
                  access_times := assocRemove s.access_times lru } :
          InMemoryCacheService α)
        else s) = _
      rw [if_pos hlrusome]
    rw [hevict]
    have hknotinrem : assocLookup (assocRemove s.cache lru) k = none := by
      rw [assocLookup_eq_none_iff, assocKeys_assocRemove]
      intro hm
      exact hknotin (List.mem_of_mem_erase hm)
    have hknotinremats : assocLookup (assocRemove s.access_times lru) k =
        none := by
      rw [assocLookup_eq_none_iff, assocKeys_assocRemove, ← hkeys]
      intro hm
      exact hknotin (List.mem_of_mem_erase hm)
    refine ⟨?_, ?_, ?_⟩
    · show (assocKeys (assocSet (assocRemove s.cache lru) k v)).Nodup
      rw [assocKeys_assocSet_of_none _ _ _ hknotinrem, assocKeys_assocRemove]
      have h1 : (assocKeys s.cache).erase lru ⊆ assocKeys s.cache :=
        List.erase_subset _ _
      have h2 : k ∉ (assocKeys s.cache).erase lru := fun hm => hknotin (h1 hm)
      simp [List.nodup_append, hnodup.erase lru, h2]
    · show assocKeys (assocSet (assocRemove s.cache lru) k v) =
        assocKeys (assocSet (assocRemove s.access_times lru) k s.clock)
      rw [assocKeys_assocSet_of_none _ _ _ hknotinrem,
        assocKeys_assocSet_of_none _ _ _ hknotinremats,
        assocKeys_assocRemove, assocKeys_assocRemove, hkeys]
    · show (assocSet (assocRemove s.cache lru) k v).length ≤ s.max_size
      rw [length_assocSet_of_none _ _ _ hknotinrem]
      have := length_assocRemove_of_mem s.cache lru hlrucache
      omega
  · rw [if_neg hc]
    cases hl : assocLookup s.cache k with
    | some v' =>
      have hk : k ∈ assocKeys s.cache := by
        rw [← assocLookup_isSome_iff, hl]
        rfl
      have hkats : k ∈ assocKeys s.access_times := by
        rw [← hkeys]
        exact hk
      refine ⟨?_, ?_, ?_⟩
      · show (assocKeys (assocSet s.cache k v)).Nodup
        rw [assocKeys_assocSet_of_mem _ _ _ hk]
        exact hnodup
      · show assocKeys (assocSet s.cache k v) =
          assocKeys (assocSet s.access_times k s.clock)
        rw [assocKeys_assocSet_of_mem _ _ _ hk,
          assocKeys_assocSet_of_mem _ _ _ hkats, hkeys]
      · show (assocSet s.cache k v).length ≤ s.max_size
        rw [length_assocSet_of_mem _ _ _ hk]
        exact hlen
    | none =>
      have hlt : s.cache.length < s.max_size := by
        by_contra hge
        exact hc ⟨by omega, by rw [hl]; rfl⟩
      have hknotin : k ∉ assocKeys s.cache :=
        (assocLookup_eq_none_iff s.cache k).mp hl
      have hlats : assocLookup s.access_times k = none := by
        rw [assocLookup_eq_none_iff, ← hkeys]
        exact hknotin
      refine ⟨?_, ?_, ?_⟩
      · show (assocKeys (assocSet s.cache k v)).Nodup
        rw [assocKeys_assocSet_of_none _ _ _ hl]
        simp [List.nodup_append, hnodup, hknotin]
      · show assocKeys (assocSet s.cache k v) =
          assocKeys (assocSet s.access_times k s.clock)
        rw [assocKeys_assocSet_of_none _ _ _ hl,
          assocKeys_assocSet_of_none _ _ _ hlats, hkeys]
      · show (assocSet s.cache k v).length ≤ s.max_size
        rw [length_assocSet_of_none _ _ _ hl]
        omega

theorem cacheWF_applyCacheOp {α : Type} (s : InMemoryCacheService α)
    (op : CacheOp α) (hpos : 1 ≤ s.max_size) (h : CacheWF s) :
    CacheWF (applyCacheOp s op) := by
  cases op with
  | get k => exact cacheWF_get s k h
  | set k v => exact cacheWF_set s k v hpos h
  | delete k => exact cacheWF_delete s k h
  | clear => exact ⟨List.nodup_nil, rfl, Nat.zero_le _⟩

theorem cacheWF_runCacheOps {α : Type} (s : InMemoryCacheService α)
    (ops : List (CacheOp α)) (hpos : 1 ≤ s.max_size) (h : CacheWF s) :
    CacheWF (runCacheOps s ops) := by
  induction ops generalizing s with
  | nil => exact h
  | cons op rest ih =>
    show CacheWF (runCacheOps (applyCacheOp s op) rest)
    apply ih
    · rw [max_size_applyCacheOp]
      exact hpos
    · exact cacheWF_applyCacheOp s op hpos h

theorem max_size_runCacheOps {α : Type} (s : InMemoryCacheService α)
    (ops : List (CacheOp α)) : (runCacheOps s ops).max_size = s.max_size := by
  induction ops generalizing s with
  | nil => rfl
  | cons op rest ih =>
    show (runCacheOps (applyCacheOp s op) rest).max_size = s.max_size
    rw [ih, max_size_applyCacheOp]

/-- C10. For every `InMemoryCacheService` constructed with
`max_size >= 1`, every sequence of `get`, `set`, `delete` and `clear`
operations preserves the invariant that the number of cached entries never
exceeds `max_size` and that the cache mapping and the access-times mapping
always hold exactly the same keys. -/
theorem cache_invariant_preserved (α : Type) (n : Nat) (hn : 1 ≤ n)
    (ops : List (CacheOp α)) :
    CacheWF (runCacheOps (InMemoryCacheService.init α n) ops) ∧
    (runCacheOps (InMemoryCacheService.init α n) ops).cache.length ≤ n ∧
    assocKeys (runCacheOps (InMemoryCacheService.init α n) ops).cache =
      assocKeys (runCacheOps (InMemoryCacheService.init α n) ops).access_times := by
  have hwf : CacheWF (runCacheOps (InMemoryCacheService.init α n) ops) := by
    apply cacheWF_runCacheOps _ _ hn
    exact ⟨List.nodup_nil, rfl, Nat.zero_le _⟩
  refine ⟨hwf, ?_, hwf.2.1⟩
  have hms := max_size_runCacheOps (InMemoryCacheService.init α n) ops
  have := hwf.2.2
  rw [hms] at this
  exact this

/-- Witness for C10 on a concrete capacity-2 cache driven past capacity. -/
theorem cache_invariant_preserved_witness :
    CacheWF (runCacheOps (InMemoryCacheService.init Nat 2)
      [.set "a" 1, .set "b" 2, .get "a", .set "c" 3, .delete "b",
        .set "d" 4, .clear, .set "e" 5]) ∧
    (runCacheOps (InMemoryCacheService.init Nat 2)
      [.set "a" 1, .set "b" 2, .get "a", .set "c" 3, .delete "b",
        .set "d" 4, .clear, .set "e" 5]).cache.length ≤ 2 ∧
    assocKeys (runCacheOps (InMemoryCacheService.init Nat 2)
      [.set "a" 1, .set "b" 2, .get "a", .set "c" 3, .delete "b",
        .set "d" 4, .clear, .set "e" 5]).cache =
      assocKeys (runCacheOps (InMemoryCacheService.init Nat 2)
        [.set "a" 1, .set "b" 2, .get "a", .set "c" 3, .delete "b",
          .set "d" 4, .clear, .set "e" 5]).access_times :=
  cache_invariant_preserved Nat 2 (by decide)
    [.set "a" 1, .set "b" 2, .get "a", .set "c" 3, .delete "b",
      .set "d" 4, .clear, .set "e" 5]

end BranchAnalysis
